import Mathlib

/-!
Verification of the Rating & Paired-Evaluation Engine of the amm-challenge
repository: a shallow embedding, in Lean 4, of

  * `src/amm_competition/competition/elo.py` — the Elo rating system
    (`PlayerRating`, `EloRating.get_rating`, `expected_score`,
    `get_k_factor`, `margin_multiplier`, `update_ratings`), and
  * `src/scripts/paired_eval.py` — the paired-seed statistical comparator
    (`_normal_cdf`, `paired_compare`) and the staged search protocol
    (`run_search`, `_print_final_summary`),

together with theorems settling the spec's claims about them.

Modelling conventions:
  * Python floats are modelled as real numbers (`ℝ`); the claims under
    scrutiny are about exact arithmetic and ordering, not rounding.
  * `numpy.mean` of an empty array returns IEEE NaN; NaN-or-number values
    are modelled as `Option ℝ` with `none` standing for NaN.
  * The stage-selection logic of `run_search` manipulates records of
    already-computed statistics and only compares them with constants and
    with each other, so those statistics are embedded as exact rationals
    (`ℚ`), keeping the stage logic computable.
  * Python's in-place mutation of `PlayerRating` objects held in the
    `EloRating.ratings` dict is modelled by explicit state passing on a
    name-indexed map, threading writes in the source's order so that the
    aliasing case `player_a == player_b` behaves exactly as the mutation
    does.
  * A Python exception raised by `compile_source` is modelled with
    `Except`: a caught exception is a skipped element, an uncaught one
    short-circuits the enclosing loop.
-/

namespace AMM

/-! ## Stage statistics records (`run_search`, src/scripts/paired_eval.py)

Each candidate evaluated in a stage yields a stats dict; the stage
promotion/termination logic reads only its `mean_delta` and `t_stat`
entries (plus the candidate's name for display).  Those two floats are
embedded as exact rationals: the stage logic only compares them with the
constants −5, 0, 3, 1.5 and with each other. -/

structure StageStats where
  candidate : String
  mean_delta : ℚ
  t_stat : ℚ
deriving DecidableEq, Repr

/-- Embedding of `stage_results.sort(key=lambda s: s["mean_delta"], reverse=True)`
(lines 672, 732, 791 of src/scripts/paired_eval.py): a stable sort,
descending by `mean_delta`.  Python's stable sort with `reverse=True` keeps
the original relative order of records with equal keys, as `mergeSort` with
the reflexive relation below does. -/
def sort_desc (l : List StageStats) : List StageStats :=
  l.mergeSort (fun a b => decide (b.mean_delta ≤ a.mean_delta))

/-- Embedding of Stage 1 promotion (src/scripts/paired_eval.py lines 671-676):
sort by `mean_delta` descending, drop candidates with `mean_delta < -5`
(the filter keeps `s["mean_delta"] >= -5`), and keep at most the top 8. -/
def stage1_promote (stage1_results : List StageStats) : List StageStats :=
  ((sort_desc stage1_results).filter (fun s => decide (-5 ≤ s.mean_delta))).take 8

/-- Embedding of the Stage 2 stop/promote decision
(src/scripts/paired_eval.py lines 732-742): after sorting descending by
`mean_delta`, if no result has `mean_delta > 0` the protocol returns before
Stage 3 (`none`); otherwise Stage 3 receives the positives, capped to the
top 3 (`some promoted2`). -/
def stage2_decision (stage2_results : List StageStats) : Option (List StageStats) :=
  let sorted := sort_desc stage2_results
  if stage2_results.any (fun s => decide (0 < s.mean_delta)) then
    some ((sorted.filter (fun s => decide (0 < s.mean_delta))).take 3)
  else
    none

/-- The three mutually exclusive recommendations `_print_final_summary` can
print (src/scripts/paired_eval.py lines 795-830). -/
inductive Recommendation where
  | adopt
  | marginal
  | baseline
deriving DecidableEq, Repr

/-- Embedding of the recommendation logic of `_print_final_summary`
(src/scripts/paired_eval.py lines 803-830): an empty ranking recommends the
baseline; otherwise the decision reads `results[0]`, recommending adoption
when `mean_delta > 3 and abs(t_stat) > 1.5`, a marginal improvement when
only `mean_delta > 0`, and the baseline otherwise. -/
def final_recommendation (results : List StageStats) : Recommendation :=
  match results with
  | [] => .baseline
  | best :: _ =>
      if 3 < best.mean_delta ∧ (1.5 : ℚ) < |best.t_stat| then .adopt
      else if 0 < best.mean_delta then .marginal
      else .baseline

/-! ## Compiler-failure handling inside `run_search`

Stage 1 (src/scripts/paired_eval.py lines 636-643) wraps
`compile_source(source)` in `try/except` and `continue`s past a failing
candidate; Stages 2 and 3 (lines 702-705 and 761-764) call
`compile_source(source)` with no handler.  The loops are modelled
generically over a compile step `κ → Except ε α` and an evaluation step
`α → σ` standing for the simulator run plus `paired_compare`. -/

/-- Embedding of the Stage 1 candidate loop's error handling
(src/scripts/paired_eval.py lines 636-669): each candidate is compiled; a
compile failure is logged and skipped (`continue`), a success is evaluated
and its stats appended. -/
def stage1_screen {κ ε α σ : Type} (compile : κ → Except ε α) (evalStats : α → σ)
    (cands : List κ) : List σ :=
  cands.filterMap (fun c =>
    match compile c with
    | .error _ => none
    | .ok a => some (evalStats a))

/-- Embedding of the Stage 2 and Stage 3 candidate loops' error handling
(src/scripts/paired_eval.py lines 701-730 and 760-789): each promoted
candidate is recompiled with no `try/except`, so the first compile failure
propagates out of the loop and aborts the run. -/
def stage23_eval {κ ε α σ : Type} (compile : κ → Except ε α) (evalStats : α → σ)
    (cands : List κ) : Except ε (List σ) :=
  cands.mapM (fun c => (compile c).map evalStats)

/-! ## Elo rating system (src/amm_competition/competition/elo.py) -/

/-- Embedding of the `PlayerRating` dataclass
(src/amm_competition/competition/elo.py lines 9-17). -/
structure PlayerRating where
  name : String
  rating : ℝ
  matches_played : ℕ
  wins : ℕ
  losses : ℕ
  draws : ℕ

/-- The record `PlayerRating(name=name, rating=initial_rating)` built by
`get_rating` for an unseen name: default counters are all zero. -/
def defaultPlayer (initial_rating : ℝ) (name : String) : PlayerRating :=
  { name := name, rating := initial_rating, matches_played := 0,
    wins := 0, losses := 0, draws := 0 }

/-- Embedding of the `EloRating` object's state: the constructor arguments
(src/amm_competition/competition/elo.py lines 35-50) and the mutable
`ratings` dict, as a name-indexed partial map. -/
structure EloState where
  initial_rating : ℝ
  k_factor : ℝ
  mov_factor : ℝ
  ratings : String → Option PlayerRating

/-- The empty rating system built by `EloRating.__init__`
(src/amm_competition/competition/elo.py lines 35-50). -/
def initial_state (initial_rating k_factor mov_factor : ℝ) : EloState :=
  { initial_rating := initial_rating, k_factor := k_factor,
    mov_factor := mov_factor, ratings := fun _ => none }

/-- Embedding of `EloRating.get_rating`
(src/amm_competition/competition/elo.py lines 52-59): get-or-create.  The
returned state reflects the possible insertion into the `ratings` dict. -/
def get_rating (st : EloState) (name : String) : EloState × PlayerRating :=
  match st.ratings name with
  | some p => (st, p)
  | none =>
      let p := defaultPlayer st.initial_rating name
      ({ st with ratings := Function.update st.ratings name (some p) }, p)

/-- Reading a player's record the way the Python code observes it through
`get_rating`: the stored record when present, the default otherwise. -/
def peek (st : EloState) (name : String) : PlayerRating :=
  (st.ratings name).getD (defaultPlayer st.initial_rating name)

/-- In-place mutation of the `PlayerRating` object stored under `name`
(e.g. `rating_a.wins += 1`), as a map update.  The callers below only
modify names that `get_rating` has made present. -/
def modify_player (st : EloState) (name : String) (f : PlayerRating → PlayerRating) :
    EloState :=
  match st.ratings name with
  | some p => { st with ratings := Function.update st.ratings name (some (f p)) }
  | none => st

/-- Embedding of `EloRating.expected_score`
(src/amm_competition/competition/elo.py lines 61-67). -/
noncomputable def expected_score (rating_a rating_b : ℝ) : ℝ :=
  1 / (1 + (10 : ℝ) ^ ((rating_b - rating_a) / 400))

/-- Embedding of `EloRating.get_k_factor`
(src/amm_competition/competition/elo.py lines 69-79). -/
noncomputable def get_k_factor (k_factor : ℝ) (player : PlayerRating) : ℝ :=
  if player.matches_played < 10 then k_factor * 1.5
  else if player.matches_played < 30 then k_factor
  else k_factor * 0.75

/-- Embedding of `EloRating.margin_multiplier`
(src/amm_competition/competition/elo.py lines 81-99).  Scores are `int` in
the source; the division producing `margin` is Python float division. -/
noncomputable def margin_multiplier (mov_factor : ℝ)
    (winner_score loser_score total_games : ℤ) : ℝ :=
  if total_games = 0 then 1
  else
    let margin : ℝ := ((winner_score : ℝ) - (loser_score : ℝ)) / (total_games : ℝ)
    1 + mov_factor * Real.log (1 + margin * 2)

/-- Embedding of `EloRating.update_ratings`
(src/amm_competition/competition/elo.py lines 101-159).  The writes are
threaded in the source's order (counters, then `rating_a.rating`, then
`rating_b.rating`, then both `matches_played`), so the aliasing case
`player_a == player_b` is modelled exactly as the in-place mutation
behaves; `expected_*` and the K-factors are read after the counter writes,
as in the source, where those writes do not touch `rating` or
`matches_played`. -/
noncomputable def update_ratings (st : EloState) (player_a player_b : String)
    (score_a score_b : ℤ) : EloState × ℝ × ℝ :=
  let st1 := (get_rating st player_a).1
  let st2 := (get_rating st1 player_b).1
  let total_games := score_a + score_b
  if total_games = 0 then
    (st2, (peek st2 player_a).rating, (peek st2 player_b).rating)
  else
    let actual_a : ℝ := if score_a > score_b then 1 else if score_b > score_a then 0 else 0.5
    let actual_b : ℝ := if score_a > score_b then 0 else if score_b > score_a then 1 else 0.5
    let st3 :=
      if score_a > score_b then
        modify_player (modify_player st2 player_a (fun p => { p with wins := p.wins + 1 }))
          player_b (fun p => { p with losses := p.losses + 1 })
      else if score_b > score_a then
        modify_player (modify_player st2 player_a (fun p => { p with losses := p.losses + 1 }))
          player_b (fun p => { p with wins := p.wins + 1 })
      else
        modify_player (modify_player st2 player_a (fun p => { p with draws := p.draws + 1 }))
          player_b (fun p => { p with draws := p.draws + 1 })
    let multiplier : ℝ :=
      if score_a > score_b then margin_multiplier st.mov_factor score_a score_b total_games
      else if score_b > score_a then margin_multiplier st.mov_factor score_b score_a total_games
      else 1
    let expected_a := expected_score (peek st3 player_a).rating (peek st3 player_b).rating
    let expected_b := 1 - expected_a
    let k_a := get_k_factor st.k_factor (peek st3 player_a)
    let k_b := get_k_factor st.k_factor (peek st3 player_b)
    let st4 := modify_player st3 player_a (fun p =>
      { p with rating := p.rating + k_a * multiplier * (actual_a - expected_a) })
    let st5 := modify_player st4 player_b (fun p =>
      { p with rating := p.rating + k_b * multiplier * (actual_b - expected_b) })
    let st6 := modify_player st5 player_a (fun p =>
      { p with matches_played := p.matches_played + 1 })
    let st7 := modify_player st6 player_b (fun p =>
      { p with matches_played := p.matches_played + 1 })
    (st7, (peek st7 player_a).rating, (peek st7 player_b).rating)

/-- The counter invariant of a single player record (spec §3):
`wins + losses + draws == matches_played`. -/
def ratings_invariant (p : PlayerRating) : Prop :=
  p.wins + p.losses + p.draws = p.matches_played

/-- The counter invariant over every player stored in the rating map. -/
def state_invariant (st : EloState) : Prop :=
  ∀ n p, st.ratings n = some p → ratings_invariant p

/-- States reachable from a freshly constructed `EloRating` through its
mutating operations `get_rating` and `update_ratings`. -/
inductive Reachable : EloState → Prop where
  | init (initial_rating k_factor mov_factor : ℝ) :
      Reachable (initial_state initial_rating k_factor mov_factor)
  | get_step {st : EloState} (name : String) :
      Reachable st → Reachable (get_rating st name).1
  | update_step {st : EloState} (player_a player_b : String) (score_a score_b : ℤ) :
      Reachable st → Reachable (update_ratings st player_a player_b score_a score_b).1

/-! ## Paired-seed comparator (src/scripts/paired_eval.py) -/

/-- The mathematical complementary error function computed by `math.erfc`:
`erfc x = (2/√π) ∫_x^∞ exp (-t²) dt`. -/
noncomputable def erfc (x : ℝ) : ℝ :=
  2 / Real.sqrt Real.pi * ∫ t in Set.Ioi x, Real.exp (-t ^ 2)

/-- Embedding of `_normal_cdf` (src/scripts/paired_eval.py lines 432-434):
`0.5 * math.erfc(-x / math.sqrt(2))`. -/
noncomputable def normal_cdf (x : ℝ) : ℝ :=
  0.5 * erfc (-x / Real.sqrt 2)

/-- Modelled from the spec: the standard normal cumulative distribution
function `Φ(x) = (1/√(2π)) ∫_{-∞}^x exp (-t²/2) dt`, against which the
spec states the comparator's p-value. -/
noncomputable def stdNormalCDF (x : ℝ) : ℝ :=
  (∫ t in Set.Iio x, Real.exp (-t ^ 2 / 2)) / Real.sqrt (2 * Real.pi)

/-- Embedding of `numpy.mean` on a 1-d array: the arithmetic mean, or NaN
(modelled as `none`) on an empty array. -/
noncomputable def np_mean (xs : List ℝ) : Option ℝ :=
  if xs.isEmpty then none else some (xs.sum / xs.length)

/-- Embedding of `numpy.std(xs, ddof=1)`: the square root of the sum of
squared deviations from the mean divided by `n - 1`.  `paired_compare`
evaluates it only under its `n > 1` guard. -/
noncomputable def np_std_ddof1 (xs : List ℝ) : ℝ :=
  Real.sqrt ((xs.map (fun x => (x - xs.sum / xs.length) ^ 2)).sum / (xs.length - 1))

/-- Modelled from the spec: the arithmetic mean of a sample, stated for
nonempty samples. -/
noncomputable def specMean (xs : List ℝ) : ℝ :=
  xs.sum / xs.length

/-- Modelled from the spec: the sample standard deviation with Bessel's
correction (`n − 1` divisor), stated for samples with `n > 1`. -/
noncomputable def specSampleStd (xs : List ℝ) : ℝ :=
  Real.sqrt ((xs.map (fun x => (x - specMean xs) ^ 2)).sum / (xs.length - 1))

/-- The dict returned by `paired_compare`
(src/scripts/paired_eval.py lines 509-518).  Fields that can be the NaN of
an empty `numpy.mean` are `Option ℝ`. -/
structure CompareResult where
  n : ℕ
  cand_mean : Option ℝ
  base_mean : Option ℝ
  mean_delta : Option ℝ
  se : ℝ
  t_stat : ℝ
  p_value : ℝ
  win_rate : Option ℝ

/-- Embedding of `paired_compare` (src/scripts/paired_eval.py lines
485-518) on equal-length inputs (numpy broadcasting makes unequal lengths
an error; the claims supply equal lengths, and `zipWith` agrees with the
source whenever the lengths agree).  `mean_delta.getD 0` in `t_stat` is
exact: `se > 0` forces `n > 1`, where `np_mean` is `some`.  `win_rate` is
`numpy.mean` of the 0/1 array `deltas > 0`. -/
noncomputable def paired_compare (cand_edges base_edges : List ℝ) : CompareResult :=
  let n := cand_edges.length
  let deltas := cand_edges.zipWith (fun c b => c - b) base_edges
  let mean_delta := np_mean deltas
  let std_delta := if 1 < n then np_std_ddof1 deltas else 0
  let se := if 0 < n then std_delta / Real.sqrt n else 0
  let t_stat := if 0 < se then mean_delta.getD 0 / se else 0
  let p_value := if 0 < se then 2 * (1 - normal_cdf |t_stat|) else 1
  let win_rate := np_mean (deltas.map (fun d => if 0 < d then 1 else 0))
  { n := n, cand_mean := np_mean cand_edges, base_mean := np_mean base_edges,
    mean_delta := mean_delta, se := se, t_stat := t_stat,
    p_value := p_value, win_rate := win_rate }

/-! ## Theorems: stage selection logic (claims C3, C4, C5) -/

/-- The result of `sort_desc` is a permutation of its input. -/
theorem sort_desc_perm (l : List StageStats) : (sort_desc l).Perm l :=
  List.mergeSort_perm l _

/-- The result of `sort_desc` is sorted descending by `mean_delta`. -/
theorem sort_desc_pairwise (l : List StageStats) :
    (sort_desc l).Pairwise (fun a b => b.mean_delta ≤ a.mean_delta) := by
  have h := @List.sorted_mergeSort StageStats
      (fun a b => decide (b.mean_delta ≤ a.mean_delta))
      (fun a b c hab hbc => by
        simp only [decide_eq_true_eq] at hab hbc ⊢
        exact le_trans hbc hab)
      (fun a b => by
        simp only [Bool.or_eq_true, decide_eq_true_eq]
        exact le_total b.mean_delta a.mean_delta)
      l
  simpa [sort_desc] using h

/-- C3: Stage 1 promotion never keeps a candidate with `mean_delta < -5`;
the promoted list is the first eight entries of the survivors sorted
descending by `mean_delta` (so it is itself sorted descending), its length
is at most 8, and it is exactly 8 when more than 8 candidates survive the
threshold. -/
theorem stage1_promote_spec (results : List StageStats) :
    (∀ s ∈ stage1_promote results, ¬ s.mean_delta < -5) ∧
    (stage1_promote results).Pairwise (fun a b => b.mean_delta ≤ a.mean_delta) ∧
    (∃ survivors : List StageStats,
        survivors.Perm (results.filter (fun s => decide (-5 ≤ s.mean_delta))) ∧
        survivors.Pairwise (fun a b => b.mean_delta ≤ a.mean_delta) ∧
        stage1_promote results = survivors.take 8) ∧
    (stage1_promote results).length ≤ 8 ∧
    (8 < (results.filter (fun s => decide (-5 ≤ s.mean_delta))).length →
      (stage1_promote results).length = 8) := by
  refine ⟨?_, ?_, ?_, ?_, ?_⟩
  · intro s hs
    have hs' : s ∈ (sort_desc results).filter (fun s => decide (-5 ≤ s.mean_delta)) :=
      List.mem_of_mem_take hs
    have := List.of_mem_filter hs'
    simp only [decide_eq_true_eq] at this
    exact not_lt.mpr this
  · exact List.Pairwise.sublist (List.take_sublist _ _) ((sort_desc_pairwise results).filter _)
  · refine ⟨(sort_desc results).filter (fun s => decide (-5 ≤ s.mean_delta)),
      (sort_desc_perm results).filter _, (sort_desc_pairwise results).filter _, rfl⟩
  · simp [stage1_promote]
  · intro h
    have hlen : ((sort_desc results).filter (fun s => decide (-5 ≤ s.mean_delta))).length
        = (results.filter (fun s => decide (-5 ≤ s.mean_delta))).length :=
      ((sort_desc_perm results).filter _).length_eq
    simp only [stage1_promote, List.length_take, hlen]
    omega

/-- C4: if no Stage-2 result has strictly positive `mean_delta`, the
protocol returns before Stage 3 (`stage2_decision` is `none`); otherwise
the Stage-3 candidate set contains only strictly positive results and is
the top 3 of the positives ordered descending by `mean_delta`. -/
theorem stage2_decision_spec (results : List StageStats) :
    ((∀ s ∈ results, s.mean_delta ≤ 0) ↔ stage2_decision results = none) ∧
    (∀ l, stage2_decision results = some l →
      (∀ s ∈ l, 0 < s.mean_delta) ∧
      l.length ≤ 3 ∧
      l.Pairwise (fun a b => b.mean_delta ≤ a.mean_delta) ∧
      ∃ positives : List StageStats,
        positives.Perm (results.filter (fun s => decide (0 < s.mean_delta))) ∧
        positives.Pairwise (fun a b => b.mean_delta ≤ a.mean_delta) ∧
        l = positives.take 3) := by
  constructor
  · constructor
    · intro h
      have hany : results.any (fun s => decide (0 < s.mean_delta)) = false := by
        simp only [List.any_eq_false, decide_eq_true_eq]
        intro s hs
        exact not_lt.mpr (h s hs)
      simp [stage2_decision, hany]
    · intro h s hs
      by_contra hpos
      have hany : results.any (fun s => decide (0 < s.mean_delta)) = true :=
        List.any_eq_true.mpr ⟨s, hs, by simpa using not_le.mp hpos⟩
      simp [stage2_decision, hany] at h
  · intro l hl
    rcases hif : results.any (fun s => decide (0 < s.mean_delta)) with _ | _
    · simp [stage2_decision, hif] at hl
    · simp only [stage2_decision, hif, if_true, Option.some.injEq] at hl
      subst hl
      refine ⟨?_, ?_, ?_, ?_⟩
      · intro s hs
        have hs' := List.of_mem_filter (List.mem_of_mem_take hs)
        simpa using hs'
      · simp
      · exact List.Pairwise.sublist (List.take_sublist _ _) ((sort_desc_pairwise results).filter _)
      · exact ⟨(sort_desc results).filter (fun s => decide (0 < s.mean_delta)),
          (sort_desc_perm results).filter _, (sort_desc_pairwise results).filter _, rfl⟩

/-- C5: the final summary produces exactly one of three recommendations,
decided by the first-ranked candidate's statistics: adoption when
`mean_delta > 3` and `|t_stat| > 1.5`, a marginal improvement when only
`mean_delta > 0`, the baseline otherwise; an empty ranking recommends the
baseline. -/
theorem final_recommendation_spec (best : StageStats) (rest : List StageStats) :
    final_recommendation [] = .baseline ∧
    (3 < best.mean_delta → (1.5 : ℚ) < |best.t_stat| →
      final_recommendation (best :: rest) = .adopt) ∧
    (0 < best.mean_delta → ¬ (3 < best.mean_delta ∧ (1.5 : ℚ) < |best.t_stat|) →
      final_recommendation (best :: rest) = .marginal) ∧
    (best.mean_delta ≤ 0 → final_recommendation (best :: rest) = .baseline) ∧
    (final_recommendation (best :: rest) = .adopt ∨
      final_recommendation (best :: rest) = .marginal ∨
      final_recommendation (best :: rest) = .baseline) := by
  refine ⟨rfl, ?_, ?_, ?_, ?_⟩
  · intro h1 h2
    simp [final_recommendation, h1, h2]
  · intro hpos hnot
    simp [final_recommendation, hnot, hpos]
  · intro hle
    have h1 : ¬ (3 < best.mean_delta ∧ (1.5 : ℚ) < |best.t_stat|) := by
      rintro ⟨h3, -⟩
      exact absurd (h3.trans_le hle) (by norm_num)
    have h2 : ¬ 0 < best.mean_delta := not_lt.mpr hle
    simp [final_recommendation, h1, h2]
  · simp only [final_recommendation]
    split_ifs <;> simp

/-! ## Theorems: compiler-failure handling (claim C6) -/

/-- C6 counterexample: in Stage 2 (and identically Stage 3), a single
candidate whose compilation fails makes the whole stage evaluation
propagate the error and abort, instead of dropping the candidate and
continuing to an (empty) result list. -/
theorem stage23_single_failure_aborts :
    stage23_eval (fun _ : ℕ => (Except.error () : Except Unit Unit)) id [0] =
      Except.error () ∧
    stage23_eval (fun _ : ℕ => (Except.error () : Except Unit Unit)) id [0] ≠
      Except.ok [] := by
  constructor
  · rfl
  · intro h
    rw [show stage23_eval (fun _ : ℕ => (Except.error () : Except Unit Unit)) id [0] =
        Except.error () from rfl] at h
    exact Except.noConfusion h

/-- C6 (amended): in Stage 1 a compile failure is caught — the failing
candidate is dropped and the loop continues with the remaining candidates
— but in Stages 2 and 3 `compile_source` runs with no handler, so the
first compile failure propagates and aborts the stage. -/
theorem compile_failure_handling {κ ε α σ : Type} (compile : κ → Except ε α)
    (evalStats : α → σ) :
    (∀ (xs ys : List κ) (c : κ) (e : ε), compile c = .error e →
      stage1_screen compile evalStats (xs ++ c :: ys) =
        stage1_screen compile evalStats (xs ++ ys)) ∧
    (∀ (xs ys : List κ) (c : κ) (e : ε), (∀ x ∈ xs, (compile x).isOk) →
      compile c = .error e →
      stage23_eval compile evalStats (xs ++ c :: ys) = .error e) := by
  constructor
  · intro xs ys c e hc
    simp [stage1_screen, List.filterMap_append, List.filterMap_cons, hc]
  · intro xs ys c e hok hc
    induction xs with
    | nil =>
        rw [List.nil_append]
        show (c :: ys).mapM (fun c => (compile c).map evalStats) = Except.error e
        rw [List.mapM_cons, hc]
        rfl
    | cons x xs ih =>
        have hx : (compile x).isOk := hok x (by simp)
        rcases hcx : compile x with e' | a
        · rw [hcx] at hx
          simp [Except.isOk, Except.toBool] at hx
        · have ih2 : (xs ++ c :: ys).mapM (fun c => (compile c).map evalStats) =
              Except.error e := ih (fun y hy => hok y (by simp [hy]))
          rw [List.cons_append]
          show (x :: (xs ++ c :: ys)).mapM (fun c => (compile c).map evalStats) =
            Except.error e
          rw [List.mapM_cons, hcx]
          show ((xs ++ c :: ys).mapM (fun c => (compile c).map evalStats) >>=
            fun rest => pure (evalStats a :: rest)) = Except.error e
          rw [ih2]
          rfl

/-! ## Theorems: margin multiplier (claim C7) -/

/-- C7: `margin_multiplier` returns 1 when `total_games == 0` and otherwise
`1 + mov_factor * ln(1 + 2*margin)` with `margin = (winner - loser) /
total_games`; on valid inputs (`mov_factor ≥ 0`, `0 ≤ loser ≤ winner`,
`winner - loser ≤ total_games`, `total_games > 0`) it is at least 1, equals
1 at zero margin, and is monotone in the margin. -/
theorem margin_multiplier_spec (mov_factor : ℝ) (w l t w2 l2 t2 w3 t3 : ℤ)
    (hmov : 0 ≤ mov_factor)
    (hl : 0 ≤ l) (hlw : l ≤ w) (hwt : w - l ≤ t) (ht : 0 < t)
    (hl2 : 0 ≤ l2) (hlw2 : l2 ≤ w2) (hwt2 : w2 - l2 ≤ t2) (ht2 : 0 < t2)
    (ht3 : 0 < t3)
    (hmargin : ((w : ℝ) - (l : ℝ)) / (t : ℝ) ≤ ((w2 : ℝ) - (l2 : ℝ)) / (t2 : ℝ)) :
    margin_multiplier mov_factor w l 0 = 1 ∧
    margin_multiplier mov_factor w l t =
      1 + mov_factor * Real.log (1 + 2 * (((w : ℝ) - (l : ℝ)) / (t : ℝ))) ∧
    1 ≤ margin_multiplier mov_factor w l t ∧
    margin_multiplier mov_factor w3 w3 t3 = 1 ∧
    margin_multiplier mov_factor w l t ≤ margin_multiplier mov_factor w2 l2 t2 := by
  have hm1 : (0 : ℝ) ≤ ((w : ℝ) - (l : ℝ)) / (t : ℝ) := by
    apply div_nonneg
    · exact sub_nonneg.mpr (by exact_mod_cast hlw)
    · exact_mod_cast ht.le
  have hm2 : (0 : ℝ) ≤ ((w2 : ℝ) - (l2 : ℝ)) / (t2 : ℝ) := by
    apply div_nonneg
    · exact sub_nonneg.mpr (by exact_mod_cast hlw2)
    · exact_mod_cast ht2.le
  have hform : ∀ (a b c : ℤ), c ≠ 0 → margin_multiplier mov_factor a b c =
      1 + mov_factor * Real.log (1 + 2 * (((a : ℝ) - (b : ℝ)) / (c : ℝ))) := by
    intro a b c hc
    simp only [margin_multiplier, if_neg hc]
    ring_nf
  refine ⟨by simp [margin_multiplier], hform w l t ht.ne', ?_, ?_, ?_⟩
  · rw [hform w l t ht.ne']
    have hlog : 0 ≤ Real.log (1 + 2 * (((w : ℝ) - (l : ℝ)) / (t : ℝ))) :=
      Real.log_nonneg (by linarith)
    nlinarith
  · rcases eq_or_ne t3 0 with h | h
    · simp [margin_multiplier, h]
    · rw [hform w3 w3 t3 h]
      simp
  · rw [hform w l t ht.ne', hform w2 l2 t2 ht2.ne']
    have hlog : Real.log (1 + 2 * (((w : ℝ) - (l : ℝ)) / (t : ℝ))) ≤
        Real.log (1 + 2 * (((w2 : ℝ) - (l2 : ℝ)) / (t2 : ℝ))) := by
      rw [Real.log_le_log_iff (by linarith) (by linarith)]
      linarith
    nlinarith

/-- C7 witness: the properties at `mov_factor = 1/2`, the match 3–1 out of
4 games against 5–1 out of 6 (margins 1/2 and 2/3), and zero margin 2–2. -/
theorem margin_multiplier_spec_witness :
    margin_multiplier (1 / 2) 3 1 0 = 1 ∧
    margin_multiplier (1 / 2) 3 1 4 =
      1 + (1 / 2) * Real.log (1 + 2 * (((3 : ℝ) - (1 : ℝ)) / (4 : ℝ))) ∧
    1 ≤ margin_multiplier (1 / 2) 3 1 4 ∧
    margin_multiplier (1 / 2) 2 2 4 = 1 ∧
    margin_multiplier (1 / 2) 3 1 4 ≤ margin_multiplier (1 / 2) 5 1 6 := by
  have h := margin_multiplier_spec (1 / 2) 3 1 4 5 1 6 2 4
    (by norm_num) (by norm_num) (by norm_num) (by norm_num) (by norm_num)
    (by norm_num) (by norm_num) (by norm_num) (by norm_num) (by norm_num)
    (by norm_num)
  push_cast at h
  exact h

/-! ## Theorems: Elo rating state (claims C8, C9, C10) -/

/-- The map after `get_rating`: the looked-up name is bound to its observed
record, everything else is untouched. -/
theorem get_rating_fst_ratings (st : EloState) (name m : String) :
    ((get_rating st name).1).ratings m =
      if m = name then some (peek st name) else st.ratings m := by
  unfold get_rating peek
  rcases h : st.ratings name with _ | p
  · simp [h, Function.update_apply]
  · simp only [h, Option.getD_some]
    split_ifs with hm
    · subst hm; exact h
    · rfl

/-- The call `get_rating` does not change the configuration field
`initial_rating`. -/
theorem get_rating_fst_initial (st : EloState) (name : String) :
    ((get_rating st name).1).initial_rating = st.initial_rating := by
  unfold get_rating
  rcases h : st.ratings name with _ | p <;> simp [h]

/-- Observing any player through `peek` is invariant under `get_rating`:
the get-or-create only materialises the record `peek` already reports. -/
theorem peek_get_rating_fst (st : EloState) (name m : String) :
    peek (get_rating st name).1 m = peek st m := by
  unfold peek
  rw [get_rating_fst_ratings, get_rating_fst_initial]
  split_ifs with hm
  · subst hm; rfl
  · rfl

/-- The map after `modify_player`: the touched name's record goes through
`f`, everything else is untouched. -/
theorem modify_player_ratings (st : EloState) (name : String)
    (f : PlayerRating → PlayerRating) (m : String) :
    (modify_player st name f).ratings m =
      if m = name then (st.ratings name).map f else st.ratings m := by
  unfold modify_player
  rcases h : st.ratings name with _ | p
  · split_ifs with hm
    · subst hm; rw [h]; rfl
    · rfl
  · simp only [h, Function.update_apply, Option.map_some']

/-- On a zero score total, `update_ratings` takes the early-return branch:
the state is exactly the one after the two `get_rating` lookups and the
returned pair is the two observed ratings. -/
theorem update_ratings_of_total_zero (st : EloState) (player_a player_b : String)
    (score_a score_b : ℤ) (h : score_a + score_b = 0) :
    update_ratings st player_a player_b score_a score_b =
      ((get_rating (get_rating st player_a).1 player_b).1,
        (peek (get_rating (get_rating st player_a).1 player_b).1 player_a).rating,
        (peek (get_rating (get_rating st player_a).1 player_b).1 player_b).rating) := by
  simp [update_ratings, h]

/-- C8: a call with `score_a + score_b == 0` neither changes any observable
player record — rating, wins, losses, draws, matches_played all stay what
they were — nor the configuration, and it returns the two current
ratings. -/
theorem update_ratings_noop (st : EloState) (player_a player_b : String)
    (score_a score_b : ℤ) (h : score_a + score_b = 0) :
    peek (update_ratings st player_a player_b score_a score_b).1 player_a =
      peek st player_a ∧
    peek (update_ratings st player_a player_b score_a score_b).1 player_b =
      peek st player_b ∧
    (update_ratings st player_a player_b score_a score_b).2 =
      ((peek st player_a).rating, (peek st player_b).rating) := by
  rw [update_ratings_of_total_zero st player_a player_b score_a score_b h]
  rw [peek_get_rating_fst, peek_get_rating_fst, peek_get_rating_fst, peek_get_rating_fst]
  exact ⟨rfl, rfl, rfl⟩

/-- C8 witness: updating two absent players of a fresh system with scores
0–0 observably changes nothing and returns the current (default)
ratings. -/
theorem update_ratings_noop_witness :
    peek (update_ratings (initial_state 1500 32 0.5) "a" "b" 0 0).1 "a" =
      peek (initial_state 1500 32 0.5) "a" ∧
    peek (update_ratings (initial_state 1500 32 0.5) "a" "b" 0 0).1 "b" =
      peek (initial_state 1500 32 0.5) "b" ∧
    (update_ratings (initial_state 1500 32 0.5) "a" "b" 0 0).2 =
      ((peek (initial_state 1500 32 0.5) "a").rating,
        (peek (initial_state 1500 32 0.5) "b").rating) :=
  update_ratings_noop (initial_state 1500 32 0.5) "a" "b" 0 0 (by decide)

/-- C10: on the zero-total no-op path, names absent from the rating map are
still inserted: afterwards both are present with the configured initial
rating and zero counters, and the call returns the initial rating twice —
the population grows even on this path. -/
theorem update_ratings_noop_inserts (st : EloState) (player_a player_b : String)
    (score_a score_b : ℤ) (h : score_a + score_b = 0)
    (ha : st.ratings player_a = none) (hb : st.ratings player_b = none) :
    (update_ratings st player_a player_b score_a score_b).1.ratings player_a =
      some (defaultPlayer st.initial_rating player_a) ∧
    (update_ratings st player_a player_b score_a score_b).1.ratings player_b =
      some (defaultPlayer st.initial_rating player_b) ∧
    (update_ratings st player_a player_b score_a score_b).2 =
      (st.initial_rating, st.initial_rating) := by
  rw [update_ratings_of_total_zero st player_a player_b score_a score_b h]
  have hpa : peek st player_a = defaultPlayer st.initial_rating player_a := by
    simp [peek, ha]
  have hpb : peek st player_b = defaultPlayer st.initial_rating player_b := by
    simp [peek, hb]
  refine ⟨?_, ?_, ?_⟩
  · rw [get_rating_fst_ratings]
    split_ifs with hab
    · rw [hab, peek_get_rating_fst, hpb]
    · rw [get_rating_fst_ratings, if_pos rfl, hpa]
  · rw [get_rating_fst_ratings, if_pos rfl, peek_get_rating_fst, hpb]
  · rw [peek_get_rating_fst, peek_get_rating_fst, peek_get_rating_fst, peek_get_rating_fst,
      hpa, hpb]
    rfl

/-- C10 witness: inserting the two absent players "a" and "b" of a fresh
system through the 0–0 no-op path. -/
theorem update_ratings_noop_inserts_witness :
    (update_ratings (initial_state 1500 32 0.5) "a" "b" 0 0).1.ratings "a" =
      some (defaultPlayer (initial_state 1500 32 0.5).initial_rating "a") ∧
    (update_ratings (initial_state 1500 32 0.5) "a" "b" 0 0).1.ratings "b" =
      some (defaultPlayer (initial_state 1500 32 0.5).initial_rating "b") ∧
    (update_ratings (initial_state 1500 32 0.5) "a" "b" 0 0).2 =
      ((initial_state 1500 32 0.5).initial_rating,
        (initial_state 1500 32 0.5).initial_rating) :=
  update_ratings_noop_inserts (initial_state 1500 32 0.5) "a" "b" 0 0
    (by decide) rfl rfl

/-- The record `peek` reports satisfies the counter invariant whenever the
whole state does: a stored record by assumption, the default by its zero
counters. -/
theorem ratings_invariant_peek (st : EloState) (name : String)
    (h : state_invariant st) : ratings_invariant (peek st name) := by
  unfold peek
  rcases hq : st.ratings name with _ | q
  · simp [defaultPlayer, ratings_invariant]
  · simpa using h name q hq

/-- The call `get_rating` preserves the counter invariant: it can only insert the
default record, whose counters are all zero. -/
theorem state_invariant_get_rating (st : EloState) (name : String)
    (h : state_invariant st) : state_invariant (get_rating st name).1 := by
  intro n p hp
  rw [get_rating_fst_ratings] at hp
  split_ifs at hp with hn
  · cases hp
    exact ratings_invariant_peek st name h
  · exact h n p hp

/-- One match's worth of writes preserves the counter invariant: a chain of
six `modify_player`s — one counter increment for each player (`g1`, `g2`),
one rating write for each player (`f3`, `f4`, which touch no counter), and
one `matches_played` increment for each player — keeps
`wins + losses + draws == matches_played` for every stored record, for
distinct names and for the aliased name alike. -/
theorem state_invariant_chain (st : EloState) (pa pb : String)
    (g1 g2 f3 f4 : PlayerRating → PlayerRating)
    (hg1 : ∀ p, (g1 p).wins + (g1 p).losses + (g1 p).draws
        = p.wins + p.losses + p.draws + 1 ∧ (g1 p).matches_played = p.matches_played)
    (hg2 : ∀ p, (g2 p).wins + (g2 p).losses + (g2 p).draws
        = p.wins + p.losses + p.draws + 1 ∧ (g2 p).matches_played = p.matches_played)
    (hf3 : ∀ p, (f3 p).wins + (f3 p).losses + (f3 p).draws
        = p.wins + p.losses + p.draws ∧ (f3 p).matches_played = p.matches_played)
    (hf4 : ∀ p, (f4 p).wins + (f4 p).losses + (f4 p).draws
        = p.wins + p.losses + p.draws ∧ (f4 p).matches_played = p.matches_played)
    (h : state_invariant st) :
    state_invariant
      (modify_player (modify_player (modify_player (modify_player (modify_player
        (modify_player st pa g1) pb g2) pa f3) pb f4) pa
        (fun p => { p with matches_played := p.matches_played + 1 })) pb
        (fun p => { p with matches_played := p.matches_played + 1 })) := by
  intro n p hp
  simp only [modify_player_ratings] at hp
  by_cases hna : n = pa <;> by_cases hnb : n = pb
  · simp only [← hna, ← hnb] at hp
    simp at hp
    rcases hq : st.ratings n with _ | q <;> rw [hq] at hp <;> simp at hp
    have hinv := h n q hq
    have e1 := hg1 q
    have e2 := hg2 (g1 q)
    have e3 := hf3 (g2 (g1 q))
    have e4 := hf4 (f3 (g2 (g1 q)))
    subst hp
    unfold ratings_invariant at hinv ⊢
    dsimp only
    omega
  · have h4 : ¬ pb = n := fun hh => hnb hh.symm
    simp only [← hna] at hp
    simp [hnb, h4] at hp
    rcases hq : st.ratings n with _ | q <;> rw [hq] at hp <;> simp at hp
    have hinv := h n q hq
    have e1 := hg1 q
    have e3 := hf3 (g1 q)
    subst hp
    unfold ratings_invariant at hinv ⊢
    dsimp only
    omega
  · have h4 : ¬ pa = n := fun hh => hna hh.symm
    simp only [← hnb] at hp
    simp [hna, h4] at hp
    rcases hq : st.ratings n with _ | q <;> rw [hq] at hp <;> simp at hp
    have hinv := h n q hq
    have e2 := hg2 q
    have e4 := hf4 (g2 q)
    subst hp
    unfold ratings_invariant at hinv ⊢
    dsimp only
    omega
  · simp [hna, hnb] at hp
    exact h n p hp

/-- The call `update_ratings` preserves the counter invariant for every input: the
no-op branch only performs the two lookups, and each scored branch is an
instance of the six-write chain above. -/
theorem state_invariant_update (st : EloState) (player_a player_b : String)
    (score_a score_b : ℤ) (h : state_invariant st) :
    state_invariant (update_ratings st player_a player_b score_a score_b).1 := by
  have h2 : state_invariant (get_rating (get_rating st player_a).1 player_b).1 :=
    state_invariant_get_rating _ _ (state_invariant_get_rating _ _ h)
  rcases eq_or_ne (score_a + score_b) 0 with h0 | h0
  · rw [update_ratings_of_total_zero st player_a player_b score_a score_b h0]
    exact h2
  · have h0' : (score_a + score_b = 0) = False := eq_false h0
    rcases lt_trichotomy score_b score_a with hc | hc | hc
    · have h1 : (score_a > score_b) = True := eq_true hc
      have h2' : (score_b > score_a) = False := eq_false (lt_asymm hc)
      simp only [update_ratings, h0', h1, h2', if_true, if_false, ite_true, ite_false]
      exact state_invariant_chain _ player_a player_b _ _ _ _
        (fun p => ⟨by dsimp only; omega, rfl⟩) (fun p => ⟨by dsimp only; omega, rfl⟩)
        (fun p => ⟨rfl, rfl⟩) (fun p => ⟨rfl, rfl⟩) h2
    · have h1 : (score_a > score_b) = False := eq_false (by omega)
      have h2' : (score_b > score_a) = False := eq_false (by omega)
      simp only [update_ratings, h0', h1, h2', if_true, if_false, ite_true, ite_false]
      exact state_invariant_chain _ player_a player_b _ _ _ _
        (fun p => ⟨by dsimp only; omega, rfl⟩) (fun p => ⟨by dsimp only; omega, rfl⟩)
        (fun p => ⟨rfl, rfl⟩) (fun p => ⟨rfl, rfl⟩) h2
    · have h1 : (score_a > score_b) = False := eq_false (lt_asymm hc)
      have h2' : (score_b > score_a) = True := eq_true hc
      simp only [update_ratings, h0', h1, h2', if_true, if_false, ite_true, ite_false]
      exact state_invariant_chain _ player_a player_b _ _ _ _
        (fun p => ⟨by dsimp only; omega, rfl⟩) (fun p => ⟨by dsimp only; omega, rfl⟩)
        (fun p => ⟨rfl, rfl⟩) (fun p => ⟨rfl, rfl⟩) h2

/-- C9: every player of the rating map satisfies
`wins + losses + draws == matches_played` at creation, and the invariant is
preserved by every `get_rating` and `update_ratings` call, so it holds in
every reachable state of the rating system. -/
theorem reachable_state_invariant (st : EloState) (h : Reachable st) :
    state_invariant st := by
  induction h with
  | init initial_rating k_factor mov_factor =>
      intro n p hp
      simp [initial_state] at hp
  | get_step name _ ih => exact state_invariant_get_rating _ _ ih
  | update_step player_a player_b score_a score_b _ ih =>
      exact state_invariant_update _ _ _ _ _ ih

/-- C9 witness: after a 3–1 match between two new players of a fresh
system, the record of player "a" satisfies the counter invariant. -/
theorem reachable_state_invariant_witness :
    ratings_invariant
      (peek (update_ratings (initial_state 1500 32 0.5) "a" "b" 3 1).1 "a") := by
  have hinv := reachable_state_invariant
    (update_ratings (initial_state 1500 32 0.5) "a" "b" 3 1).1
    (Reachable.update_step "a" "b" 3 1 (Reachable.init 1500 32 0.5))
  exact ratings_invariant_peek _ _ hinv

/-! ## Theorems: paired comparator (claims C1, C2) -/

/-- The erfc-based expression computed by `_normal_cdf` is exactly the
standard normal cumulative distribution function: substituting
`t = s/√2` in the erfc integral and folding the even integrand across 0
turns `0.5 * erfc (-x/√2)` into `(1/√(2π)) ∫_{-∞}^x exp (-s²/2) ds`. -/
theorem normal_cdf_eq_stdNormalCDF (x : ℝ) : normal_cdf x = stdNormalCDF x := by
  have h2 : (0 : ℝ) < Real.sqrt 2 := Real.sqrt_pos.mpr (by norm_num)
  have hsub : ∫ t in Set.Ioi (-x / Real.sqrt 2), Real.exp (-t ^ 2)
      = (Real.sqrt 2)⁻¹ •
        ∫ s in Set.Ioi (Real.sqrt 2 * (-x / Real.sqrt 2)), Real.exp (-s ^ 2 / 2) := by
    rw [show (fun t : ℝ => Real.exp (-t ^ 2))
        = (fun t : ℝ => Real.exp (-(Real.sqrt 2 * t) ^ 2 / 2)) from funext (fun t => by
          congr 1
          rw [mul_pow, Real.sq_sqrt (by norm_num : (0 : ℝ) ≤ 2)]
          ring)]
    exact MeasureTheory.integral_comp_mul_left_Ioi (fun s => Real.exp (-s ^ 2 / 2)) _ h2
  have harg : Real.sqrt 2 * (-x / Real.sqrt 2) = -x := by
    field_simp
    ring
  have heven : ∫ s in Set.Ioi (-x), Real.exp (-s ^ 2 / 2)
      = ∫ s in Set.Iic x, Real.exp (-s ^ 2 / 2) := by
    have henv : (fun s : ℝ => Real.exp (-s ^ 2 / 2))
        = (fun s : ℝ => Real.exp (-(-s) ^ 2 / 2)) := funext (fun s => by ring_nf)
    calc ∫ s in Set.Ioi (-x), Real.exp (-s ^ 2 / 2)
        = ∫ s in Set.Ioi (-x), Real.exp (-(-s) ^ 2 / 2) := by rw [← henv]
      _ = ∫ s in Set.Iic x, Real.exp (-s ^ 2 / 2) := by
          have h := integral_comp_neg_Ioi (-x) (fun s => Real.exp (-s ^ 2 / 2))
          rw [neg_neg] at h
          exact h
  have hiio : ∫ s in Set.Iic x, Real.exp (-s ^ 2 / 2)
      = ∫ s in Set.Iio x, Real.exp (-s ^ 2 / 2) :=
    MeasureTheory.integral_Iic_eq_integral_Iio
  have hpi : Real.sqrt Real.pi ≠ 0 :=
    ne_of_gt (Real.sqrt_pos.mpr Real.pi_pos)
  have hsplit : Real.sqrt (2 * Real.pi) = Real.sqrt 2 * Real.sqrt Real.pi :=
    Real.sqrt_mul (by norm_num) _
  rw [normal_cdf, erfc, stdNormalCDF, hsub, harg, heven, hiio, smul_eq_mul, hsplit]
  field_simp
  ring

/-- C1: on equal-length inputs with `n ≥ 1`, `paired_compare` returns the
mean of the per-seed deltas, the Bessel-corrected standard error, the
guarded t-statistic, the two-sided standard-normal p-value (degenerating to
1 when `se = 0`), and the strict win rate. -/
theorem paired_compare_spec (cand_edges base_edges : List ℝ)
    (hlen : base_edges.length = cand_edges.length) (hn : 1 ≤ cand_edges.length) :
    (paired_compare cand_edges base_edges).n = cand_edges.length ∧
    (paired_compare cand_edges base_edges).mean_delta =
      some (specMean (cand_edges.zipWith (fun c b => c - b) base_edges)) ∧
    (paired_compare cand_edges base_edges).se =
      (if 1 < cand_edges.length then
        specSampleStd (cand_edges.zipWith (fun c b => c - b) base_edges) else 0) /
        Real.sqrt cand_edges.length ∧
    (paired_compare cand_edges base_edges).t_stat =
      (if 0 < (paired_compare cand_edges base_edges).se then
        specMean (cand_edges.zipWith (fun c b => c - b) base_edges) /
          (paired_compare cand_edges base_edges).se
        else 0) ∧
    (paired_compare cand_edges base_edges).p_value =
      (if 0 < (paired_compare cand_edges base_edges).se then
        2 * (1 - stdNormalCDF |(paired_compare cand_edges base_edges).t_stat|)
        else 1) ∧
    (paired_compare cand_edges base_edges).win_rate =
      some (((cand_edges.zipWith (fun c b => c - b) base_edges).map
        (fun d => if 0 < d then (1 : ℝ) else 0)).sum / cand_edges.length) := by
  have hd : (cand_edges.zipWith (fun c b => c - b) base_edges).length =
      cand_edges.length := by
    rw [List.length_zipWith, hlen, min_self]
  have hne : (cand_edges.zipWith (fun c b => c - b) base_edges).isEmpty = false := by
    rw [List.isEmpty_eq_false, ← List.length_pos, hd]
    omega
  have hnew : ((cand_edges.zipWith (fun c b => c - b) base_edges).map
      (fun d => if 0 < d then (1 : ℝ) else 0)).isEmpty = false := by
    rw [List.isEmpty_eq_false, ← List.length_pos, List.length_map, hd]
    omega
  have hpos : 0 < cand_edges.length := hn
  have hmean : np_mean (cand_edges.zipWith (fun c b => c - b) base_edges) =
      some (specMean (cand_edges.zipWith (fun c b => c - b) base_edges)) := by
    simp only [np_mean, hne, Bool.false_eq_true, if_false, specMean]
  refine ⟨rfl, ?_, ?_, ?_, ?_, ?_⟩
  · simp only [paired_compare, np_mean, hne, Bool.false_eq_true, if_false, specMean, hd]
  · simp only [paired_compare, np_std_ddof1, specSampleStd, specMean, hd]
    rw [if_pos hpos]
  · simp only [paired_compare, hmean, Option.getD_some]
  · simp only [paired_compare, normal_cdf_eq_stdNormalCDF]
  · simp only [paired_compare, np_mean, hnew, Bool.false_eq_true, if_false,
      List.length_map, hd]

/-- C1 witness: at `cand = [10, 12, 8]`, `base = [8, 8, 8]` the deltas are
`[2, 4, 0]`, so `mean_delta = 2` and `win_rate = 2/3`. -/
theorem paired_compare_spec_witness :
    (paired_compare [10, 12, 8] [8, 8, 8]).mean_delta = some 2 ∧
    (paired_compare [10, 12, 8] [8, 8, 8]).win_rate = some (2 / 3) := by
  have h := paired_compare_spec [10, 12, 8] [8, 8, 8] (by simp) (by simp)
  refine ⟨?_, ?_⟩
  · rw [h.2.1]
    norm_num [specMean, List.zipWith]
  · rw [h.2.2.2.2.2]
    norm_num [List.zipWith]

/-- C2 counterexample: on empty inputs `paired_compare` does not return
zero for `mean_delta`, `cand_mean`, `base_mean` or `win_rate`: those four
statistics are the NaN of `numpy.mean` on an empty array (modelled
`none`). -/
theorem paired_compare_empty_not_all_zero :
    (paired_compare ([] : List ℝ) []).mean_delta ≠ some 0 ∧
    (paired_compare ([] : List ℝ) []).cand_mean ≠ some 0 ∧
    (paired_compare ([] : List ℝ) []).base_mean ≠ some 0 ∧
    (paired_compare ([] : List ℝ) []).win_rate ≠ some 0 := by
  refine ⟨?_, ?_, ?_, ?_⟩ <;> simp [paired_compare, np_mean]

/-- C2 (amended): on empty inputs `paired_compare` returns `n = 0`,
`se = 0`, `t_stat = 0` and the maximally inconclusive `p_value = 1` —
never a false signal — but `cand_mean`, `base_mean`, `mean_delta` and
`win_rate` are NaN (`numpy.mean` of an empty array), not zero. -/
theorem paired_compare_empty :
    paired_compare ([] : List ℝ) [] =
      { n := 0, cand_mean := none, base_mean := none, mean_delta := none,
        se := 0, t_stat := 0, p_value := 1, win_rate := none } := by
  simp [paired_compare, np_mean]

end AMM
